import Mathlib

/-!
Verification development for the embedding-cache and similarity-retrieval
core of the `task2vec` repository.

Shallow embedding conventions:
* vector entries (numpy float32 values) are modelled as exact rationals;
* a numpy matrix is a list of rows (`List (List ℚ)`);
* fallible operations (numpy calls that raise) return `Except String _`;
* the L2 norm of a vector involves a square root, which has no exact
  rational representative; wherever the source takes a norm we pass the
  norm as an extra argument `nrm` constrained by `nrm * nrm = sumSq v`
  and `0 ≤ nrm`, which characterises the real-number norm exactly.

Sources modelled:
* `src/ticketing_intel/etl/embedder.py` (`EmbeddingCache`, `embed_tickets`);
* `src/api/server.py` (`_embed`, `_top_similar`, `score`);
* `src/build_search_index.py` (`vecs_norm = normalize(vecs, norm='l2')`).
-/

/-- In-memory state of `EmbeddingCache` (src/ticketing_intel/etl/embedder.py).
`keys` models `self._keys`; `vectors` models `self._vectors`, with
`self._vectors is None` represented by the empty list (the source keeps
`_keys` empty exactly when `_vectors is None`). -/
structure EmbeddingCache where
  keys : List String
  vectors : List (List ℚ)
deriving DecidableEq

/-- Index of the LAST occurrence of `k` in a key list.  This models the
dictionary comprehension `dict((k, i) for i, k in enumerate(self._keys))`
that the source uses to rebuild `self._index`: a later enumeration entry
for the same key overwrites the earlier one, so each key maps to the row
index of its most recent occurrence. -/
def lastIndexOf (k : String) : List String → Option Nat
  | [] => none
  | x :: xs =>
    match lastIndexOf k xs with
    | some j => some (j + 1)
    | none => if x = k then some 0 else none

/-- Lookup in the `self._index` dictionary. -/
def EmbeddingCache.idx? (c : EmbeddingCache) (k : String) : Option Nat :=
  lastIndexOf k c.keys

/-- `EmbeddingCache.missing_keys`: the requested keys not present in the
index, preserving input order. -/
def EmbeddingCache.missing_keys (c : EmbeddingCache) (ks : List String) : List String :=
  ks.filter (fun k => (c.idx? k).isNone)

/-- Row width of a matrix (numpy arrays are rectangular, so the width of
the first row is the width of the matrix; `0` for an empty matrix). -/
def matWidth (m : List (List ℚ)) : Nat := (m.headD []).length

/-- `EmbeddingCache.add`.  The source appends with `np.vstack`, which
raises a `ValueError` when the two stacked blocks have different row
widths; that is the only failure of `add`.  There is no key validation of
any kind: duplicate keys and a row count different from `len(keys)` are
accepted silently.  After appending, the source rebuilds `self._index`
from scratch (modelled by `idx?` recomputing `lastIndexOf` on demand). -/
def EmbeddingCache.add (c : EmbeddingCache) (ks : List String) (vs : List (List ℚ)) :
    Except String EmbeddingCache :=
  if ks.isEmpty then .ok c
  else if c.keys.isEmpty then .ok ⟨ks, vs⟩
  else if matWidth vs = matWidth c.vectors then
    .ok ⟨c.keys ++ ks, c.vectors ++ vs⟩
  else .error "vstack: all the input array dimensions must match"

/-- `EmbeddingCache.get`: returns the requested keys that exist, in request
order, with the vector rows selected through the index. -/
def EmbeddingCache.get (c : EmbeddingCache) (ks : List String) :
    List String × List (List ℚ) :=
  let found := ks.filter (fun k => (c.idx? k).isSome)
  (found, found.map (fun k => c.vectors.getD ((c.idx? k).getD 0) []))

/-- File-system effects, for describing what `save` does on disk. -/
inductive FsOp where
  | write (path : String) (keys : List String) (vectors : List (List ℚ))
  | rename (src : String) (dst : String)
deriving DecidableEq

/-- Trace of file-system operations performed by `EmbeddingCache.save`.
The source is `np.savez(self.path, keys=..., vectors=...)` guarded by
`if not self._keys: return`: a single direct write to the destination
path, and no write at all for an empty cache. -/
def EmbeddingCache.saveOps (c : EmbeddingCache) (path : String) : List FsOp :=
  if c.keys.isEmpty then [] else [FsOp.write path c.keys c.vectors]

/-- Modelled from the spec (for the refinement comparison of claim C3):
"write to a temporary file in the same directory, then rename over the
destination".  A trace is an atomic save when it writes the state to some
temporary path distinct from the destination and then renames it over the
destination. -/
def AtomicSave (ops : List FsOp) (dst : String) : Prop :=
  ∃ tmp ks vs, tmp ≠ dst ∧ ops = [FsOp.write tmp ks vs, FsOp.rename tmp dst]

/-- The two fields of `TicketRecord` that `embed_tickets` reads. -/
structure TicketRecord where
  key : String
  embed_text : String
deriving DecidableEq

/-- The `key_to_text` dictionary comprehension of `embed_tickets`
(rightmost ticket wins for a repeated key, as in a Python dict). -/
def keyToText (tickets : List TicketRecord) (k : String) : String :=
  (tickets.foldl (fun acc t => if t.key = k then some t.embed_text else acc) none).getD ""

/-- Successive batches `texts[i : i + bs]` of the provider loop
(`for i in range(0, total, batch_size)`).  A batch size of `0` makes the
Python `range` raise, so the loop body is never entered; callers always
pass a positive batch size. -/
def chunkList (bs : Nat) (xs : List α) : List (List α) :=
  if h : bs = 0 ∨ xs.isEmpty then []
  else
    have hlt : (xs.drop bs).length < xs.length := by
      push_neg at h
      rw [List.length_drop]
      refine Nat.sub_lt (List.length_pos.mpr ?_) (Nat.pos_of_ne_zero h.1)
      simpa [List.isEmpty_iff] using h.2
    xs.take bs :: chunkList bs (xs.drop bs)
termination_by xs.length

/-- State threaded through the provider loop of `_embed_openai` /
`_embed_voyage`: `vecs` accumulated so far, the (mutated) cache,
`last_ckpt`, and the number of external embedding API calls made. -/
structure EmbedLoopState where
  vecs : List (List ℚ)
  cache : EmbeddingCache
  lastCkpt : Nat
  calls : Nat
deriving DecidableEq

/-- One iteration of the provider loop: one external API call for the
batch, then the incremental-checkpoint block (`if done - last_ckpt >=
checkpoint_every: cache.add(delta); cache.save(); last_ckpt = done`).
The `cache is not None and keys_for_checkpoint is not None` guard is
always true on the `embed_tickets` path.  `kfc` is
`keys_for_checkpoint`; the slices `[last_ckpt:done]` become
`drop`/`take`.  On-disk `cache.save()` effects are not tracked here. -/
def embedLoopStep (embedFn : String → List ℚ) (ce : Nat) (kfc : List String)
    (st : EmbedLoopState) (batch : List String) : Except String EmbedLoopState :=
  let vecs := st.vecs ++ batch.map embedFn
  let done := vecs.length
  if ce ≤ done - st.lastCkpt then
    let deltaKeys := (kfc.drop st.lastCkpt).take (done - st.lastCkpt)
    let deltaVecs := (vecs.drop st.lastCkpt).take (done - st.lastCkpt)
    match st.cache.add deltaKeys deltaVecs with
    | .error e => .error e
    | .ok c2 => .ok ⟨vecs, c2, done, st.calls + 1⟩
  else .ok ⟨vecs, st.cache, st.lastCkpt, st.calls + 1⟩

/-- The provider loop over all batches. -/
def embedLoopGo (embedFn : String → List ℚ) (ce : Nat) (kfc : List String) :
    List (List String) → EmbedLoopState → Except String EmbedLoopState
  | [], st => .ok st
  | b :: bs, st =>
    match embedLoopStep embedFn ce kfc st b with
    | .error e => .error e
    | .ok st2 => embedLoopGo embedFn ce kfc bs st2

/-- Model of `_embed_openai` / `_embed_voyage` (their batching and
checkpoint logic is identical; the external service is abstracted as a
pure `embedFn` applied to each text of a batch, one API call per batch).
Returns the embedded vectors for all texts, the updated cache, and the
number of API calls made. -/
def embedProvider (embedFn : String → List ℚ) (texts : List String) (bs ce : Nat)
    (cache : EmbeddingCache) (kfc : List String) :
    Except String (List (List ℚ) × EmbeddingCache × Nat) :=
  match embedLoopGo embedFn ce kfc (chunkList bs texts) ⟨[], cache, 0, 0⟩ with
  | .error e => .error e
  | .ok st => .ok (st.vecs, st.cache, st.calls)

/-- Result of `embed_tickets`: the returned `(all_keys, vectors)` pair,
plus the final cache state and the total number of external embedding
API calls (the latter two are implicit in the Python version, which
mutates `cache` in place). -/
structure EmbedResult where
  keys : List String
  vectors : List (List ℚ)
  cache : EmbeddingCache
  apiCalls : Nat
deriving DecidableEq

/-- Model of `embed_tickets` (src/ticketing_intel/etl/embedder.py).
The provider dispatch (`openai` / `voyage`) is abstracted into the single
`embedFn`, whose surrounding batching/checkpoint logic is identical for
both providers.  `bs` is `batch_size` and `ce` is `checkpoint_every`. -/
def embed_tickets (embedFn : String → List ℚ) (tickets : List TicketRecord)
    (cache : EmbeddingCache) (bs ce : Nat) : Except String EmbedResult :=
  let allKeys := tickets.map (fun t => t.key)
  let missing := cache.missing_keys allKeys
  if missing.isEmpty then
    .ok ⟨allKeys, (cache.get allKeys).2, cache, 0⟩
  else
    let texts := missing.map (keyToText tickets)
    match embedProvider embedFn texts bs ce cache missing with
    | .error e => .error e
    | .ok (newVecs, cache1, n) =>
      let stillMissing := cache1.missing_keys missing
      if stillMissing.isEmpty then
        .ok ⟨allKeys, (cache1.get allKeys).2, cache1, n⟩
      else
        let rows := stillMissing.map
          (fun k => newVecs.getD ((lastIndexOf k missing).getD 0) [])
        match cache1.add stillMissing rows with
        | .error e => .error e
        | .ok cache2 => .ok ⟨allKeys, (cache2.get allKeys).2, cache2, n⟩

/-- Dot product of two vectors (`_vecs @ vec` acts row-wise through this). -/
def dot (a b : List ℚ) : ℚ := (List.zipWith (fun x y => x * y) a b).sum

/-- Ascending argsort: the indices `0, ..., xs.length - 1` sorted by the
value they point at.  Models `np.argsort` on the small concrete arrays
used in this development, where numpy's introsort degenerates to a stable
insertion sort; `mergeSort` is likewise stable, so tied values keep their
index order. -/
def argsortAsc (xs : List ℚ) : List Nat :=
  (List.range xs.length).mergeSort (fun i j => decide (xs.getD i 0 ≤ xs.getD j 0))

/-- Model of `_top_similar` (src/api/server.py):

    sims = _vecs @ vec
    idx  = np.argpartition(sims, -n)[-n:]
    idx  = idx[np.argsort(sims[idx])[::-1]]
    return idx, sims[idx]

`np.argpartition(sims, -n)` raises `kth out of bounds` when `n` exceeds
the number of rows (and also on an empty matrix).  The partition is
modelled by the ascending argsort of all similarities — a valid result of
introselect — whose last `n` entries are the slice `[-n:]` (for `n = 0`
the Python slice `[-0:]` is the whole array).  The final reorder sorts
the selected indices by similarity ascending and reverses. -/
def topSimilar (vecs : List (List ℚ)) (v : List ℚ) (n : Nat) :
    Except String (List Nat × List ℚ) :=
  let sims := vecs.map (fun r => dot r v)
  let N := sims.length
  if N = 0 ∨ N < n then .error "np.argpartition: kth out of bounds"
  else
    let m := if n = 0 then N else n
    let part := (argsortAsc sims).drop (N - m)
    let ord := (argsortAsc (part.map (fun i => sims.getD i 0))).reverse
    let idx := ord.map (fun j => part.getD j 0)
    .ok (idx, idx.map (fun i => sims.getD i 0))

/-- `_top_similar` composed with the key lookup `_keys[i]` that the
routes perform on the returned indices; makes the role (or absence) of
keys in the ranking explicit. -/
def topSimilarKeys (vecs : List (List ℚ)) (ks : List String) (v : List ℚ) (n : Nat) :
    Except String (List String × List ℚ) :=
  match topSimilar vecs v n with
  | .error e => .error e
  | .ok (idx, sims) => .ok (idx.map (fun i => ks.getD i ""), sims)

/-- Sum of squares of the entries of a vector: the square of its L2 norm. -/
def sumSq (v : List ℚ) : ℚ := (v.map (fun x => x * x)).sum

/-- Model of `_embed` (src/api/server.py) after the embedding API
response: `if norm > 0: vec /= norm; return vec`.  The caller supplies
the norm `nrm` (constrained in theorems by `nrm * nrm = sumSq vec` and
`0 ≤ nrm`).  Note there is no error path: a zero-norm vector is returned
unchanged. -/
def embedNormalize (vec : List ℚ) (nrm : ℚ) : List ℚ :=
  if 0 < nrm then vec.map (fun x => x / nrm) else vec

/-- Row-wise behaviour of `sklearn.preprocessing.normalize(vecs, norm='l2')`
as used for `vecs_norm` in src/build_search_index.py: each row is divided
by its L2 norm, except that rows of norm 0 are divided by 1 (sklearn
replaces zero norms by 1), i.e. left unchanged.  As in `embedNormalize`,
the row's norm is supplied as a constrained argument `nrm`. -/
def normalizeRow (v : List ℚ) (nrm : ℚ) : List ℚ :=
  if nrm = 0 then v else v.map (fun x => x / nrm)

/-- `vecs_norm`: the whole normalized matrix, each row paired with its
norm. -/
def vecsNorm (vecs : List (List ℚ)) (norms : List ℚ) : List (List ℚ) :=
  (vecs.zip norms).map (fun p => normalizeRow p.1 p.2)

/-- The three outcome tiers of `score` (src/api/server.py):
`TIERS = ("Automate", "Assist", "Escalate")`. -/
inductive Tier where
  | Automate
  | Assist
  | Escalate
deriving DecidableEq

/-- Python `round(x, 3)`: round half to even at the third decimal. -/
def pyRound3 (x : ℚ) : ℚ :=
  let y := x * 1000
  let f := ⌊y⌋
  let r := y - f
  let n : ℤ := if r < 1 / 2 then f else if 1 / 2 < r then f + 1
    else if f % 2 = 0 then f else f + 1
  (n : ℚ) / 1000

/-- Accumulator of the neighbour loop of `score`: the per-tier entries of
the `weighted` dictionary and `total_weight`. -/
structure ScoreAcc where
  wAutomate : ℚ
  wAssist : ℚ
  wEscalate : ℚ
  total : ℚ
deriving DecidableEq

/-- One neighbour of the loop `for i, sim in zip(top_idx[:10], ...)`:
a neighbour with no outcome signal (`sig is None`) is skipped; otherwise
`w = max(0.0, sim)` is added to its tier and to the total. -/
def scoreStep (acc : ScoreAcc) (nb : ℚ × Option Tier) : ScoreAcc :=
  match nb.2 with
  | none => acc
  | some t =>
    let w := max 0 nb.1
    let acc2 := { acc with total := acc.total + w }
    match t with
    | Tier.Automate => { acc2 with wAutomate := acc2.wAutomate + w }
    | Tier.Assist => { acc2 with wAssist := acc2.wAssist + w }
    | Tier.Escalate => { acc2 with wEscalate := acc2.wEscalate + w }

/-- The accumulated weights over all considered neighbours. -/
def scoreWeights (neighbors : List (ℚ × Option Tier)) : ScoreAcc :=
  neighbors.foldl scoreStep ⟨0, 0, 0, 0⟩

/-- Python `max(probs, key=probs.__getitem__)` over the dict whose
insertion order is Automate, Assist, Escalate: a linear scan keeping the
first element, replaced only by a strictly greater later value. -/
def argmaxTier (pA pS pE : ℚ) : Tier :=
  let best := if pA < pS then (Tier.Assist, pS) else (Tier.Automate, pA)
  if best.2 < pE then Tier.Escalate else best.1

/-- What `score` returns (the probability dict in tier order, the argmax
tier, and the confidence). -/
structure ScoreResult where
  pAutomate : ℚ
  pAssist : ℚ
  pEscalate : ℚ
  tier : Tier
  confidence : ℚ
deriving DecidableEq

/-- Model of the scoring block of `score` (src/api/server.py, after the
neighbour loop).  `neighbors` is the list of `(similarity, outcome)` pairs
for the top-10 neighbours, with `none` when `_outcome_signals` has no
entry for the neighbour's key.

    if total_weight == 0:
        probs = round(1/3, 3) for each tier; tier = "Assist"; confidence = 0.0
    else:
        probs = round(weighted[t] / total_weight, 3) for each tier
        s = sum(probs.values())
        if s > 0: probs = round(probs[t] / s, 3) for each tier
        tier = max(probs, key=probs.__getitem__)
        confidence = round(probs[tier], 3) -/
def scoreModel (neighbors : List (ℚ × Option Tier)) : ScoreResult :=
  let acc := scoreWeights neighbors
  if acc.total = 0 then
    let u := pyRound3 (1 / 3)
    ⟨u, u, u, Tier.Assist, 0⟩
  else
    let pA := pyRound3 (acc.wAutomate / acc.total)
    let pS := pyRound3 (acc.wAssist / acc.total)
    let pE := pyRound3 (acc.wEscalate / acc.total)
    let s := pA + pS + pE
    let qA := if 0 < s then pyRound3 (pA / s) else pA
    let qS := if 0 < s then pyRound3 (pS / s) else pS
    let qE := if 0 < s then pyRound3 (pE / s) else pE
    let t := argmaxTier qA qS qE
    let conf := pyRound3 (match t with
      | Tier.Automate => qA
      | Tier.Assist => qS
      | Tier.Escalate => qE)
    ⟨qA, qS, qE, t, conf⟩

/-! ### Helper lemmas -/

/-- The rebuilt index contains a key exactly when the key list does. -/
theorem lastIndexOf_isSome (k : String) (ks : List String) :
    (lastIndexOf k ks).isSome = true ↔ k ∈ ks := by
  induction ks with
  | nil => simp [lastIndexOf]
  | cons x xs ih =>
    rw [lastIndexOf]
    cases h : lastIndexOf k xs with
    | some j =>
      rw [h] at ih
      simp only [Option.isSome_some, true_iff] at ih
      simp [List.mem_cons, ih]
    | none =>
      rw [h] at ih
      simp only [Option.isSome_none, Bool.false_eq_true, false_iff] at ih
      by_cases hx : x = k
      · simp [hx, List.mem_cons]
      · simp only [hx, if_false, Option.isSome_none, Bool.false_eq_true, false_iff,
          List.mem_cons]
        rintro (h1 | h2)
        · exact hx h1.symm
        · exact ih h2

/-- A key appended at the end of the key list gets the last row index. -/
theorem lastIndexOf_append_self (k : String) (ks : List String) :
    lastIndexOf k (ks ++ [k]) = some ks.length := by
  induction ks with
  | nil => simp [lastIndexOf]
  | cons x xs ih => rw [List.cons_append, lastIndexOf, ih]; simp

theorem sumSq_cons (x : ℚ) (xs : List ℚ) : sumSq (x :: xs) = x * x + sumSq xs := by
  simp [sumSq]

theorem sumSq_nonneg (v : List ℚ) : 0 ≤ sumSq v := by
  induction v with
  | nil => simp [sumSq]
  | cons x xs ih => rw [sumSq_cons]; nlinarith [mul_self_nonneg x]

theorem sumSq_eq_zero_iff (v : List ℚ) : sumSq v = 0 ↔ ∀ x ∈ v, x = 0 := by
  induction v with
  | nil => simp [sumSq]
  | cons x xs ih =>
    rw [sumSq_cons]
    constructor
    · intro h
      have hx2 : 0 ≤ x * x := mul_self_nonneg x
      have hs : 0 ≤ sumSq xs := sumSq_nonneg xs
      have hx : x = 0 := by nlinarith
      have hxs : ∀ y ∈ xs, y = 0 := ih.mp (by nlinarith)
      intro y hy
      rcases List.mem_cons.mp hy with h1 | h2
      · exact h1.trans hx
      · exact hxs y h2
    · intro h
      have hx : x = 0 := h x (List.mem_cons_self x xs)
      have hxs : sumSq xs = 0 := ih.mpr (fun y hy => h y (List.mem_cons_of_mem x hy))
      rw [hx, hxs]; ring

theorem sumSq_map_div (v : List ℚ) (n : ℚ) (hn : n ≠ 0) :
    sumSq (v.map (fun x => x / n)) = sumSq v / (n * n) := by
  induction v with
  | nil => simp [sumSq]
  | cons x xs ih =>
    simp only [List.map_cons, sumSq_cons, ih]
    field_simp

/-- Dot product against an all-zero right operand is zero. -/
theorem dot_zero_right (r v : List ℚ) (hz : ∀ x ∈ v, x = 0) : dot r v = 0 := by
  induction r generalizing v with
  | nil => simp [dot]
  | cons a r ih =>
    cases v with
    | nil => simp [dot]
    | cons x xs =>
      have hx : x = 0 := hz x (List.mem_cons_self x xs)
      have hxs : ∀ y ∈ xs, y = 0 := fun y hy => hz y (List.mem_cons_of_mem x hy)
      simp only [dot, List.zipWith_cons_cons, List.sum_cons] at *
      rw [hx, ih xs hxs]; ring

/-! ### Claim C3 (save atomicity) -/

/-- Claim C3 counterexample: on the concrete one-entry cache, `save`
produces a single direct write to the destination path — not a
write-to-temporary followed by a rename, so the save is not atomic and an
error during the write does not leave the previous file untouched. -/
theorem save_not_atomic_cex :
    ¬ AtomicSave (EmbeddingCache.saveOps ⟨["A"], [[1]]⟩ "embeddings.npz")
      "embeddings.npz" := by
  rintro ⟨tmp, ks, vs, -, h⟩
  simp [EmbeddingCache.saveOps] at h

/-- Claim C3 (amended): `save` persists a non-empty cache with ONE direct
`np.savez` write to the destination path itself; there is no temporary
file and no rename, so the trace never satisfies the atomic-save shape
from the spec.  (An empty cache is not written at all.) -/
theorem save_direct_write (c : EmbeddingCache) (path : String)
    (h : c.keys ≠ []) :
    c.saveOps path = [FsOp.write path c.keys c.vectors] ∧
    ¬ AtomicSave (c.saveOps path) path := by
  have hne : c.keys.isEmpty = false := by
    rw [Bool.eq_false_iff]
    intro hc
    exact h (List.isEmpty_iff.mp hc)
  constructor
  · rw [EmbeddingCache.saveOps, hne]; rfl
  · rintro ⟨tmp, ks, vs, -, habs⟩
    rw [EmbeddingCache.saveOps, hne] at habs
    simp at habs

theorem save_direct_write_witness :
    EmbeddingCache.saveOps ⟨["A"], [[1]]⟩ "cache.npz" =
      [FsOp.write "cache.npz" ["A"] [[1]]] ∧
    ¬ AtomicSave (EmbeddingCache.saveOps ⟨["A"], [[1]]⟩ "cache.npz") "cache.npz" :=
  save_direct_write ⟨["A"], [[1]]⟩ "cache.npz" (by simp)

/-! ### Claim C4 (add validation) -/

/-- Claim C4 counterexample: `add` with a key that already exists
succeeds silently (no `DuplicateKeyError`), and `add` with a vector row
count different from `len(keys)` also succeeds silently (no
`DimensionMismatchError`). -/
theorem add_no_validation_cex :
    EmbeddingCache.add ⟨["A"], [[1]]⟩ ["A"] [[2]] =
      .ok ⟨["A", "A"], [[1], [2]]⟩ ∧
    EmbeddingCache.add ⟨[], []⟩ ["A", "B"] [[1]] =
      .ok ⟨["A", "B"], [[1]]⟩ := by
  constructor <;> rfl

/-- Claim C4 (amended): `add` performs no key or row-count validation —
duplicate keys and a row count different from the key count are accepted
silently.  Its only failure is stacking vectors whose row width differs
from the established width of a non-empty cache, which fails with a
generic `ValueError` from `np.vstack` (and, the model being pure, leaves
the existing cache value unchanged). -/
theorem add_only_width_errors (c : EmbeddingCache) (ks : List String)
    (vs : List (List ℚ)) (hks : ks ≠ []) (hc : c.keys ≠ []) :
    (matWidth vs ≠ matWidth c.vectors →
      c.add ks vs = .error "vstack: all the input array dimensions must match") ∧
    (matWidth vs = matWidth c.vectors →
      c.add ks vs = .ok ⟨c.keys ++ ks, c.vectors ++ vs⟩) := by
  have h1 : ks.isEmpty = false := by
    rw [Bool.eq_false_iff]; intro h; exact hks (List.isEmpty_iff.mp h)
  have h2 : c.keys.isEmpty = false := by
    rw [Bool.eq_false_iff]; intro h; exact hc (List.isEmpty_iff.mp h)
  constructor
  · intro hw
    rw [EmbeddingCache.add, h1, h2]
    simp [hw]
  · intro hw
    rw [EmbeddingCache.add, h1, h2]
    simp [hw]

theorem add_only_width_errors_witness :
    EmbeddingCache.add ⟨["A"], [[1]]⟩ ["B"] [[1, 2]] =
      .error "vstack: all the input array dimensions must match" :=
  (add_only_width_errors ⟨["A"], [[1]]⟩ ["B"] [[1, 2]] (by simp) (by simp)).1
    (by simp [matWidth])

/-! ### Claim C10 (duplicate-key last-write-wins index) -/

/-- Claim C10: adding an already-present key raises no error; afterwards
the key-to-row index maps the key to the newly appended row, so `get`
returns the newest vector, while the key list and vector matrix retain
the older row: the key's occurrence count grows by one and so does
`len(cache)`. -/
theorem add_duplicate_key_semantics (c : EmbeddingCache) (k : String)
    (v : List ℚ) (hmem : k ∈ c.keys)
    (halign : c.vectors.length = c.keys.length)
    (hw : v.length = matWidth c.vectors) :
    c.add [k] [v] = .ok ⟨c.keys ++ [k], c.vectors ++ [v]⟩ ∧
    (EmbeddingCache.mk (c.keys ++ [k]) (c.vectors ++ [v])).idx? k =
      some c.keys.length ∧
    (EmbeddingCache.mk (c.keys ++ [k]) (c.vectors ++ [v])).get [k] = ([k], [v]) ∧
    (c.keys ++ [k]).count k = c.keys.count k + 1 ∧
    (c.keys ++ [k]).length = c.keys.length + 1 := by
  have hc : c.keys.isEmpty = false := by
    rw [Bool.eq_false_iff]; intro h
    exact List.ne_nil_of_mem hmem (List.isEmpty_iff.mp h)
  have hidx : lastIndexOf k (c.keys ++ [k]) = some c.keys.length :=
    lastIndexOf_append_self k c.keys
  refine ⟨?_, hidx, ?_, ?_, by simp⟩
  · rw [EmbeddingCache.add, hc]
    have : matWidth [v] = matWidth c.vectors := hw
    simp [this]
  · have hget : (c.vectors ++ [v]).getD c.keys.length [] = v := by
      rw [List.getD_eq_getElem _ _ (by simp [halign])]
      exact List.getElem_concat_length c.vectors v c.keys.length halign.symm _
    have hfil : List.filter
        (fun k2 => (lastIndexOf k2 (c.keys ++ [k])).isSome) [k] = [k] := by
      simp [List.filter_cons, hidx]
    simp only [EmbeddingCache.get, EmbeddingCache.idx?]
    rw [hfil]
    simp only [List.map_cons, List.map_nil, hidx, Option.getD_some]
    rw [hget]
  · simp [List.count_append]

theorem add_duplicate_key_semantics_witness :
    EmbeddingCache.add ⟨["A"], [[5]]⟩ ["A"] [[7]] = .ok ⟨["A", "A"], [[5], [7]]⟩ ∧
    (EmbeddingCache.mk ["A", "A"] [[5], [7]]).idx? "A" = some 1 ∧
    (EmbeddingCache.mk ["A", "A"] [[5], [7]]).get ["A"] = (["A"], [[7]]) ∧
    (["A", "A"] : List String).count "A" = ["A"].count "A" + 1 ∧
    (["A", "A"] : List String).length = 2 := by
  have h := add_duplicate_key_semantics ⟨["A"], [[5]]⟩ "A" [7]
    (by simp) (by simp) (by simp [matWidth])
  simpa using h

/-! ### Claim C5 (zero-weight uniform fallback) -/

/-- Claim C5: when the total accumulated weight over all labels is zero
(no retrieved neighbour had both positive similarity and a known outcome
label), `score` returns a uniform distribution over the three tiers and
confidence 0, without raising an error (the model is a total function). -/
theorem score_zero_weight_uniform (neighbors : List (ℚ × Option Tier))
    (h : (scoreWeights neighbors).total = 0) :
    (scoreModel neighbors).pAutomate = (scoreModel neighbors).pAssist ∧
    (scoreModel neighbors).pAssist = (scoreModel neighbors).pEscalate ∧
    (scoreModel neighbors).confidence = 0 := by
  simp [scoreModel, h]

theorem score_zero_weight_uniform_witness :
    (scoreModel [((1 : ℚ), none), ((-2 : ℚ), some Tier.Automate)]).pAutomate =
      (scoreModel [((1 : ℚ), none), ((-2 : ℚ), some Tier.Automate)]).pAssist ∧
    (scoreModel [((1 : ℚ), none), ((-2 : ℚ), some Tier.Automate)]).pAssist =
      (scoreModel [((1 : ℚ), none), ((-2 : ℚ), some Tier.Automate)]).pEscalate ∧
    (scoreModel [((1 : ℚ), none), ((-2 : ℚ), some Tier.Automate)]).confidence = 0 :=
  score_zero_weight_uniform [((1 : ℚ), none), ((-2 : ℚ), some Tier.Automate)]
    (by norm_num [scoreWeights, scoreStep])

/-! ### Claim C7 (zero query vector) -/

/-- Claim C7 counterexample: `_embed` applied to the zero vector returns
it unchanged — it raises no `ZeroVectorError` (its codomain has no error
channel at all) — and the similarity ranking then silently accepts it,
returning an ordinary result with similarity 0 everywhere. -/
theorem embed_zero_vector_no_error_cex :
    embedNormalize [0, 0] 0 = [0, 0] ∧
    topSimilar [[1, 0], [0, 1]] (embedNormalize [0, 0] 0) 2 =
      .ok ([1, 0], [0, 0]) := by
  have h1 : embedNormalize [0, 0] 0 = [0, 0] := by norm_num [embedNormalize]
  refine ⟨h1, ?_⟩
  rw [h1]
  norm_num [topSimilar, dot, argsortAsc, List.range, List.range.loop, List.mergeSort]

/-- Claim C7 (amended): a query whose vector has norm 0 is NOT rejected:
`_embed` returns it unchanged, and it is then used for similarity
ranking, where it has dot product 0 with every indexed row. -/
theorem embed_zero_vector_passthrough (v : List ℚ) (rows : List (List ℚ))
    (hz : ∀ x ∈ v, x = 0) :
    embedNormalize v 0 = v ∧ ∀ r ∈ rows, dot r (embedNormalize v 0) = 0 := by
  have h1 : embedNormalize v 0 = v := by
    rw [embedNormalize, if_neg (lt_irrefl 0)]
  exact ⟨h1, fun r _ => by rw [h1]; exact dot_zero_right r v hz⟩

theorem embed_zero_vector_passthrough_witness :
    embedNormalize [0, 0] 0 = [0, 0] ∧
    ∀ r ∈ [[(1 : ℚ), 2], [3, 4]], dot r (embedNormalize [0, 0] 0) = 0 :=
  embed_zero_vector_passthrough [0, 0] [[1, 2], [3, 4]] (by norm_num)

/-! ### Claim C8 (k larger than the index) -/

/-- Claim C8 counterexample: on a one-row index, asking for the top 2
raises `kth out of bounds` from `np.argpartition` instead of returning
the single indexed item. -/
theorem top_similar_k_gt_n_error_cex :
    topSimilar [[1]] [1] 2 = .error "np.argpartition: kth out of bounds" := by
  norm_num [topSimilar, dot]

/-- Claim C8 (amended): whenever `k` exceeds the number of indexed rows,
`_top_similar` fails with `np.argpartition`'s `kth out of bounds` error
rather than returning all items. -/
theorem top_similar_k_gt_n_errors (vecs : List (List ℚ)) (v : List ℚ) (n : Nat)
    (h : vecs.length < n) :
    topSimilar vecs v n = .error "np.argpartition: kth out of bounds" := by
  have hlen : (vecs.map (fun r => dot r v)).length < n := by simpa using h
  simp only [topSimilar]
  rw [if_pos (Or.inr hlen)]

theorem top_similar_k_gt_n_errors_witness :
    topSimilar [[1], [2]] [1] 3 = .error "np.argpartition: kth out of bounds" :=
  top_similar_k_gt_n_errors [[1], [2]] [1] 3 (by norm_num)

/-! ### Claim C9 (normalization invariant of the built index) -/

/-- Claim C9: in the built index `vecs_norm`, every row whose source
vector is non-zero has L2 norm exactly 1 in exact arithmetic (hence
within any floating-point tolerance), and every row whose source vector
is exactly zero is left as the zero vector.  A vector is zero exactly
when its sum of squares is zero. -/
theorem vecs_norm_unit_rows (vecs : List (List ℚ)) (norms : List ℚ)
    (v : List ℚ) (nrm : ℚ) (hmem : (v, nrm) ∈ vecs.zip norms)
    (hsq : nrm * nrm = sumSq v) (hpos : 0 ≤ nrm) :
    normalizeRow v nrm ∈ vecsNorm vecs norms ∧
    (sumSq v ≠ 0 → sumSq (normalizeRow v nrm) = 1) ∧
    (sumSq v = 0 → normalizeRow v nrm = v) ∧
    (sumSq v = 0 ↔ ∀ x ∈ v, x = 0) := by
  refine ⟨?_, ?_, ?_, sumSq_eq_zero_iff v⟩
  · exact List.mem_map_of_mem (fun p => normalizeRow p.1 p.2) hmem
  · intro hne
    have hn0 : nrm ≠ 0 := by
      intro h0
      rw [h0] at hsq
      exact hne (by linarith)
    rw [normalizeRow, if_neg hn0, sumSq_map_div v nrm hn0, ← hsq]
    exact div_self (mul_ne_zero hn0 hn0)
  · intro h0
    have : nrm = 0 := by nlinarith [hsq, h0]
    rw [normalizeRow, if_pos this]

theorem vecs_norm_unit_rows_witness :
    normalizeRow [3, 4] 5 ∈ vecsNorm [[3, 4], [0, 0]] [5, 0] ∧
    (sumSq [(3 : ℚ), 4] ≠ 0 → sumSq (normalizeRow [3, 4] 5) = 1) ∧
    (sumSq [(3 : ℚ), 4] = 0 → normalizeRow [3, 4] 5 = [3, 4]) ∧
    (sumSq [(3 : ℚ), 4] = 0 ↔ ∀ x ∈ [(3 : ℚ), 4], x = 0) :=
  vecs_norm_unit_rows [[3, 4], [0, 0]] [5, 0] [3, 4] 5
    (by simp [List.zip]) (by norm_num [sumSq]) (by norm_num)

/-! ### Claim C2 (ranking order and tie-breaking) -/

/-- Every index produced by `argsortAsc` is in range. -/
theorem argsortAsc_mem (xs : List ℚ) (i : Nat) (h : i ∈ argsortAsc xs) :
    i < xs.length := by
  have hp := List.mergeSort_perm (List.range xs.length)
    (fun i j => decide (xs.getD i 0 ≤ xs.getD j 0))
  rw [argsortAsc] at h
  exact List.mem_range.mp (hp.mem_iff.mp h)

/-- Reading the values back along `argsortAsc` yields an ascending list. -/
theorem argsortAsc_map_sorted (xs : List ℚ) :
    ((argsortAsc xs).map (fun i => xs.getD i 0)).Sorted (fun a b => a ≤ b) := by
  have hs := @List.sorted_mergeSort Nat
    (fun i j => decide (xs.getD i 0 ≤ xs.getD j 0))
    (fun a b c hab hbc =>
      by simpa using le_trans (by simpa using hab) (by simpa using hbc))
    (fun a b => by simpa using le_total (xs.getD a 0) (xs.getD b 0))
    (List.range xs.length)
  rw [argsortAsc]
  exact List.Pairwise.map _ (fun a b hab => by simpa using hab) hs

/-- Reading a mapped list through `getD` at an in-range position is the
function applied to the underlying entry. -/
theorem getD_map_at (l : List Nat) (f : Nat → ℚ) (j : Nat) (h : j < l.length) :
    (l.map f).getD j 0 = f (l.getD j 0) := by
  rw [List.getD_eq_getElem _ _ (by simpa using h), List.getElem_map,
    List.getD_eq_getElem _ _ h]

/-- Claim C2 counterexample: two rows with identical vectors (hence tied
similarity 1) and keys stored in the order `["A", "B"]`: `_top_similar`
returns the keys as `["B", "A"]`, although key-ascending tie-breaking
would require `["A", "B"]` (and `"A" < "B"` lexicographically).  The
ranking never consults keys at all. -/
theorem top_similar_tie_not_key_ascending_cex :
    topSimilarKeys [[1], [1]] ["A", "B"] [1] 2 = .ok (["B", "A"], [1, 1]) ∧
    ("A" : String) < "B" ∧ (["B", "A"] : List String) ≠ ["A", "B"] := by
  refine ⟨?_, ?_, by simp⟩
  · norm_num [topSimilarKeys, topSimilar, dot, argsortAsc, List.range,
      List.range.loop, List.mergeSort]
  · rw [String.lt_iff_toList_lt]
    simp only [String.toList, String.data]
    decide

/-- Claim C2 (amended): for `0 < N` rows and `n ≤ N`, `_top_similar`
succeeds and returns similarities sorted descending; the returned index
order — including the order among tied similarities — is a function of
the vector matrix and query alone, and the key list only relabels that
fixed index order (so ties follow sort/row order, not key-ascending
order, but identical inputs always give identical ordered results). -/
theorem top_similar_sorted_keys_irrelevant (vecs : List (List ℚ))
    (ks : List String) (v : List ℚ) (n : Nat)
    (hN : vecs ≠ []) (hn : n ≤ vecs.length) :
    ∃ idx sims, topSimilar vecs v n = .ok (idx, sims) ∧
      sims.Sorted (fun a b => b ≤ a) ∧
      topSimilarKeys vecs ks v n = .ok (idx.map (fun i => ks.getD i ""), sims) := by
  have hlen : (vecs.map (fun r => dot r v)).length = vecs.length :=
    List.length_map vecs (fun r => dot r v)
  have hcond : ¬((vecs.map (fun r => dot r v)).length = 0 ∨
      (vecs.map (fun r => dot r v)).length < n) := by
    push_neg
    constructor
    · rw [hlen]
      exact fun h0 => hN (List.length_eq_zero.mp h0)
    · rw [hlen]; exact hn
  simp only [topSimilar, if_neg hcond]
  refine ⟨_, _, rfl, ?_, by simp only [topSimilarKeys, topSimilar, if_neg hcond]⟩
  set sims := vecs.map (fun r => dot r v) with hsims
  set m := if n = 0 then sims.length else n with hm
  set part := (argsortAsc sims).drop (sims.length - m) with hpart
  set sims2 := part.map (fun i => sims.getD i 0) with hsims2
  have hout : ((argsortAsc sims2).reverse.map (fun j => part.getD j 0)).map
      (fun i => sims.getD i 0) =
      ((argsortAsc sims2).map (fun j => sims2.getD j 0)).reverse := by
    rw [List.map_map, ← List.map_reverse]
    refine List.map_congr_left ?_
    intro j hj
    have hjlt : j < part.length := by
      have h1 : j < sims2.length := argsortAsc_mem sims2 j (List.mem_reverse.mp hj)
      simpa [hsims2] using h1
    simp only [Function.comp]
    rw [hsims2, getD_map_at part _ j hjlt]
  rw [hout]
  rw [List.Sorted, List.pairwise_reverse]
  exact argsortAsc_map_sorted sims2

theorem top_similar_sorted_keys_irrelevant_witness :
    ∃ idx sims, topSimilar [[1, 0], [0, 1]] [1, 0] 2 = .ok (idx, sims) ∧
      sims.Sorted (fun a b => b ≤ a) ∧
      topSimilarKeys [[1, 0], [0, 1]] ["A", "B"] [1, 0] 2 =
        .ok (idx.map (fun i => ["A", "B"].getD i ""), sims) :=
  top_similar_sorted_keys_irrelevant [[1, 0], [0, 1]] ["A", "B"] [1, 0] 2
    (by simp) (by norm_num)

/-! ### Claim C6 (probability conservation after rounding) -/

/-- Rounding to three decimals moves a rational by at most `1/2000`. -/
theorem pyRound3_err (x : ℚ) : |pyRound3 x - x| ≤ 1 / 2000 := by
  simp only [pyRound3]
  have h0 : ((⌊x * 1000⌋ : ℤ) : ℚ) ≤ x * 1000 := Int.floor_le (x * 1000)
  have h1 : x * 1000 < ((⌊x * 1000⌋ : ℤ) : ℚ) + 1 := Int.lt_floor_add_one (x * 1000)
  split_ifs with hlt hgt heven <;>
    · push_cast
      rw [abs_le]
      constructor <;> linarith

/-- One `scoreStep` preserves nonnegative per-tier weights and the
bookkeeping `total = wAutomate + wAssist + wEscalate`. -/
theorem scoreStep_inv (acc : ScoreAcc) (nb : ℚ × Option Tier)
    (h : 0 ≤ acc.wAutomate ∧ 0 ≤ acc.wAssist ∧ 0 ≤ acc.wEscalate ∧
      acc.total = acc.wAutomate + acc.wAssist + acc.wEscalate) :
    0 ≤ (scoreStep acc nb).wAutomate ∧ 0 ≤ (scoreStep acc nb).wAssist ∧
    0 ≤ (scoreStep acc nb).wEscalate ∧
    (scoreStep acc nb).total = (scoreStep acc nb).wAutomate +
      (scoreStep acc nb).wAssist + (scoreStep acc nb).wEscalate := by
  obtain ⟨h1, h2, h3, h4⟩ := h
  rcases nb with ⟨sim, sig⟩
  have hw : (0 : ℚ) ≤ max 0 sim := le_max_left 0 sim
  rcases sig with _ | t
  · exact ⟨h1, h2, h3, h4⟩
  · cases t <;> simp only [scoreStep] <;>
      exact ⟨by linarith, by linarith, by linarith, by linarith⟩

/-- The accumulated weights of the neighbour loop are nonnegative per
tier, and the grand total is their sum. -/
theorem scoreWeights_inv (neighbors : List (ℚ × Option Tier)) :
    0 ≤ (scoreWeights neighbors).wAutomate ∧
    0 ≤ (scoreWeights neighbors).wAssist ∧
    0 ≤ (scoreWeights neighbors).wEscalate ∧
    (scoreWeights neighbors).total = (scoreWeights neighbors).wAutomate +
      (scoreWeights neighbors).wAssist + (scoreWeights neighbors).wEscalate := by
  rw [scoreWeights]
  have main : ∀ (l : List (ℚ × Option Tier)) (acc : ScoreAcc),
      (0 ≤ acc.wAutomate ∧ 0 ≤ acc.wAssist ∧ 0 ≤ acc.wEscalate ∧
        acc.total = acc.wAutomate + acc.wAssist + acc.wEscalate) →
      0 ≤ (l.foldl scoreStep acc).wAutomate ∧
      0 ≤ (l.foldl scoreStep acc).wAssist ∧
      0 ≤ (l.foldl scoreStep acc).wEscalate ∧
      (l.foldl scoreStep acc).total = (l.foldl scoreStep acc).wAutomate +
        (l.foldl scoreStep acc).wAssist + (l.foldl scoreStep acc).wEscalate := by
    intro l
    induction l with
    | nil => intro acc h; exact h
    | cons nb rest ih =>
      intro acc h
      rw [List.foldl_cons]
      exact ih (scoreStep acc nb) (scoreStep_inv acc nb h)
  exact main neighbors ⟨0, 0, 0, 0⟩ (by norm_num)

/-- Claim C6 counterexample: three labelled neighbours with similarity 1,
one per tier.  Each probability rounds to 0.333, the rounded sum is
0.999, and the re-normalisation `round(p / 0.999, 3)` rounds each value
straight back to 0.333 — so the displayed distribution sums to 0.999,
not exactly 1 as the claim requires. -/
theorem score_probs_sum_ne_one_cex :
    (scoreModel [((1 : ℚ), some Tier.Automate), ((1 : ℚ), some Tier.Assist),
      ((1 : ℚ), some Tier.Escalate)]).pAutomate +
    (scoreModel [((1 : ℚ), some Tier.Automate), ((1 : ℚ), some Tier.Assist),
      ((1 : ℚ), some Tier.Escalate)]).pAssist +
    (scoreModel [((1 : ℚ), some Tier.Automate), ((1 : ℚ), some Tier.Assist),
      ((1 : ℚ), some Tier.Escalate)]).pEscalate ≠ 1 := by
  norm_num [scoreModel, scoreWeights, scoreStep, pyRound3]

/-- Claim C6 (amended): with positive total weight the returned label
probabilities sum to 1 within tolerance — at most `3/2000 = 0.0015` off,
one half-unit of the third decimal per label, both before and after the
re-normalisation step — but the re-normalised displayed distribution
need NOT sum to exactly 1. -/
theorem score_probs_sum_near_one (neighbors : List (ℚ × Option Tier))
    (h : 0 < (scoreWeights neighbors).total) :
    |((scoreModel neighbors).pAutomate + (scoreModel neighbors).pAssist +
      (scoreModel neighbors).pEscalate) - 1| ≤ 3 / 2000 := by
  obtain ⟨hA, hS, hE, htot⟩ := scoreWeights_inv neighbors
  have hne : (scoreWeights neighbors).total ≠ 0 := ne_of_gt h
  simp only [scoreModel, if_neg hne]
  set wA := (scoreWeights neighbors).wAutomate with hwA
  set wS := (scoreWeights neighbors).wAssist with hwS
  set wE := (scoreWeights neighbors).wEscalate with hwE
  set T := (scoreWeights neighbors).total with hT
  set pA := pyRound3 (wA / T) with hpA
  set pS := pyRound3 (wS / T) with hpS
  set pE := pyRound3 (wE / T) with hpE
  have hsum1 : wA / T + wS / T + wE / T = 1 := by
    field_simp
    linarith
  have hbA := pyRound3_err (wA / T)
  have hbS := pyRound3_err (wS / T)
  have hbE := pyRound3_err (wE / T)
  rw [← hpA] at hbA
  rw [← hpS] at hbS
  rw [← hpE] at hbE
  rw [abs_le] at hbA hbS hbE
  have hs1 : |pA + pS + pE - 1| ≤ 3 / 2000 := by
    rw [abs_le]; constructor <;> linarith
  have hspos : (0 : ℚ) < pA + pS + pE := by
    rw [abs_le] at hs1
    linarith
  simp only [if_pos hspos]
  set s := pA + pS + pE with hsdef
  have hsne : s ≠ 0 := ne_of_gt hspos
  have hsum2 : pA / s + pS / s + pE / s = 1 := by
    field_simp
  have hqA := pyRound3_err (pA / s)
  have hqS := pyRound3_err (pS / s)
  have hqE := pyRound3_err (pE / s)
  rw [abs_le] at hqA hqS hqE
  rw [abs_le]
  constructor <;> linarith

theorem score_probs_sum_near_one_witness :
    |((scoreModel [((1 : ℚ), some Tier.Automate), ((1 : ℚ), some Tier.Assist),
        ((1 : ℚ), some Tier.Escalate)]).pAutomate +
      (scoreModel [((1 : ℚ), some Tier.Automate), ((1 : ℚ), some Tier.Assist),
        ((1 : ℚ), some Tier.Escalate)]).pAssist +
      (scoreModel [((1 : ℚ), some Tier.Automate), ((1 : ℚ), some Tier.Assist),
        ((1 : ℚ), some Tier.Escalate)]).pEscalate) - 1| ≤ 3 / 2000 :=
  score_probs_sum_near_one
    [((1 : ℚ), some Tier.Automate), ((1 : ℚ), some Tier.Assist),
      ((1 : ℚ), some Tier.Escalate)]
    (by norm_num [scoreWeights, scoreStep])

/-! ### Claim C1 (cache idempotence of the embedding pipeline) -/

/-- A successful `add` preserves existing keys and contains the added
ones. -/
theorem add_mem_keys (c c2 : EmbeddingCache) (ks : List String) (vs : List (List ℚ))
    (h : c.add ks vs = .ok c2) (k : String) (hk : k ∈ c.keys ∨ k ∈ ks) :
    k ∈ c2.keys := by
  rw [EmbeddingCache.add] at h
  split_ifs at h with h1 h2 h3
  · have := Except.ok.inj h
    subst this
    rcases hk with hk | hk
    · exact hk
    · rw [List.isEmpty_iff.mp h1] at hk
      cases hk
  · have := Except.ok.inj h
    subst this
    rcases hk with hk | hk
    · rw [List.isEmpty_iff.mp h2] at hk
      cases hk
    · exact hk
  · have := Except.ok.inj h
    subst this
    simp only [List.mem_append]
    exact hk

/-- One provider-loop iteration never removes keys from the cache. -/
theorem embedLoopStep_mono (embedFn : String → List ℚ) (ce : Nat) (kfc : List String)
    (st : EmbedLoopState) (b : List String) (st2 : EmbedLoopState)
    (h : embedLoopStep embedFn ce kfc st b = .ok st2) (k : String)
    (hk : k ∈ st.cache.keys) : k ∈ st2.cache.keys := by
  simp only [embedLoopStep] at h
  split_ifs at h with h1
  · cases hadd : st.cache.add ((kfc.drop st.lastCkpt).take
        ((st.vecs ++ b.map embedFn).length - st.lastCkpt))
        (((st.vecs ++ b.map embedFn).drop st.lastCkpt).take
        ((st.vecs ++ b.map embedFn).length - st.lastCkpt)) with
    | error e => rw [hadd] at h; cases h
    | ok c2 =>
      rw [hadd] at h
      have := Except.ok.inj h
      subst this
      exact add_mem_keys _ _ _ _ hadd k (Or.inl hk)
  · have := Except.ok.inj h
    subst this
    exact hk

/-- The whole provider loop never removes keys from the cache. -/
theorem embedLoopGo_mono (embedFn : String → List ℚ) (ce : Nat) (kfc : List String)
    (bs : List (List String)) (st st2 : EmbedLoopState)
    (h : embedLoopGo embedFn ce kfc bs st = .ok st2) (k : String)
    (hk : k ∈ st.cache.keys) : k ∈ st2.cache.keys := by
  induction bs generalizing st with
  | nil =>
    rw [embedLoopGo] at h
    have := Except.ok.inj h
    subst this
    exact hk
  | cons b rest ih =>
    rw [embedLoopGo] at h
    cases hstep : embedLoopStep embedFn ce kfc st b with
    | error e => rw [hstep] at h; cases h
    | ok stm =>
      rw [hstep] at h
      exact ih stm h (embedLoopStep_mono embedFn ce kfc st b stm hstep k hk)

/-- `embedProvider` never removes keys from the cache. -/
theorem embedProvider_mono (embedFn : String → List ℚ) (texts : List String)
    (bs ce : Nat) (cache : EmbeddingCache) (kfc : List String)
    (vecs : List (List ℚ)) (cache1 : EmbeddingCache) (n : Nat)
    (h : embedProvider embedFn texts bs ce cache kfc = .ok (vecs, cache1, n))
    (k : String) (hk : k ∈ cache.keys) : k ∈ cache1.keys := by
  rw [embedProvider] at h
  cases hgo : embedLoopGo embedFn ce kfc (chunkList bs texts) ⟨[], cache, 0, 0⟩ with
  | error e => rw [hgo] at h; cases h
  | ok st =>
    rw [hgo] at h
    have := Except.ok.inj h
    have hc : st.cache = cache1 := congrArg (fun p => p.2.1) this
    rw [← hc]
    exact embedLoopGo_mono embedFn ce kfc (chunkList bs texts) ⟨[], cache, 0, 0⟩ st hgo k hk

/-- Characterisation of membership in `missing_keys`. -/
theorem mem_missing_keys (c : EmbeddingCache) (ks : List String) (k : String) :
    k ∈ c.missing_keys ks ↔ k ∈ ks ∧ k ∉ c.keys := by
  rw [EmbeddingCache.missing_keys, List.mem_filter]
  simp only [EmbeddingCache.idx?]
  constructor
  · rintro ⟨h1, h2⟩
    refine ⟨h1, fun hmem => ?_⟩
    have hs := (lastIndexOf_isSome k c.keys).mpr hmem
    rw [Option.isNone_iff_eq_none] at h2
    rw [h2] at hs
    cases hs
  · rintro ⟨h1, h2⟩
    refine ⟨h1, ?_⟩
    cases hidx : lastIndexOf k c.keys with
    | none => rfl
    | some j =>
      exfalso
      exact h2 ((lastIndexOf_isSome k c.keys).mp (by rw [hidx]; rfl))

/-- When `missing_keys` is empty, every requested key is cached. -/
theorem missing_keys_nil_mem (c : EmbeddingCache) (ks : List String)
    (h : c.missing_keys ks = []) (k : String) (hk : k ∈ ks) : k ∈ c.keys := by
  by_contra hmem
  have : k ∈ c.missing_keys ks := (mem_missing_keys c ks k).mpr ⟨hk, hmem⟩
  rw [h] at this
  cases this

/-- When every requested key is already cached, `embed_tickets` takes the
early branch: zero API calls, cache untouched, and the result is the
aligned view straight from `cache.get`. -/
theorem embed_tickets_all_cached (embedFn : String → List ℚ)
    (tickets : List TicketRecord) (cache : EmbeddingCache) (bs ce : Nat)
    (h : ∀ k ∈ tickets.map (fun t => t.key), k ∈ cache.keys) :
    embed_tickets embedFn tickets cache bs ce =
      .ok ⟨tickets.map (fun t => t.key),
        (cache.get (tickets.map (fun t => t.key))).2, cache, 0⟩ := by
  have hmiss : cache.missing_keys (tickets.map (fun t => t.key)) = [] := by
    rw [EmbeddingCache.missing_keys, List.filter_eq_nil_iff]
    intro a ha
    have hs := (lastIndexOf_isSome a cache.keys).mpr (h a ha)
    simp only [EmbeddingCache.idx?]
    cases hidx : lastIndexOf a cache.keys with
    | none => rw [hidx] at hs; cases hs
    | some j => simp
  simp only [embed_tickets, hmiss]
  rfl

/-- After any successful `embed_tickets` call, every requested key is in
the resulting cache (the final reconciliation step guarantees it). -/
theorem embed_tickets_ok_keys (embedFn : String → List ℚ)
    (tickets : List TicketRecord) (cache : EmbeddingCache) (bs ce : Nat)
    (res : EmbedResult)
    (h : embed_tickets embedFn tickets cache bs ce = .ok res) :
    ∀ k ∈ tickets.map (fun t => t.key), k ∈ res.cache.keys := by
  intro k hk
  simp only [embed_tickets] at h
  by_cases hmiss : (cache.missing_keys (tickets.map (fun t => t.key))).isEmpty = true
  · rw [if_pos hmiss] at h
    have := Except.ok.inj h
    subst this
    exact missing_keys_nil_mem cache _ (List.isEmpty_iff.mp hmiss) k hk
  · rw [if_neg hmiss] at h
    cases hep : embedProvider embedFn
        ((cache.missing_keys (tickets.map (fun t => t.key))).map (keyToText tickets))
        bs ce cache (cache.missing_keys (tickets.map (fun t => t.key))) with
    | error e => rw [hep] at h; cases h
    | ok out =>
      rw [hep] at h
      obtain ⟨newVecs, cache1, n⟩ := out
      dsimp only at h
      have hmono : ∀ x ∈ cache.keys, x ∈ cache1.keys := fun x hx =>
        embedProvider_mono embedFn _ bs ce cache _ newVecs cache1 n hep x hx
      by_cases hstill : (cache1.missing_keys
          (cache.missing_keys (tickets.map (fun t => t.key)))).isEmpty = true
      · rw [if_pos hstill] at h
        have := Except.ok.inj h
        subst this
        by_cases hc : k ∈ cache.keys
        · exact hmono k hc
        · have hm : k ∈ cache.missing_keys (tickets.map (fun t => t.key)) :=
            (mem_missing_keys cache _ k).mpr ⟨hk, hc⟩
          exact missing_keys_nil_mem cache1 _ (List.isEmpty_iff.mp hstill) k hm
      · rw [if_neg hstill] at h
        cases hadd : cache1.add
            (cache1.missing_keys (cache.missing_keys (tickets.map (fun t => t.key))))
            ((cache1.missing_keys
              (cache.missing_keys (tickets.map (fun t => t.key)))).map
              (fun k2 => newVecs.getD ((lastIndexOf k2
                (cache.missing_keys (tickets.map (fun t => t.key)))).getD 0) [])) with
        | error e => rw [hadd] at h; cases h
        | ok cache2 =>
          rw [hadd] at h
          have := Except.ok.inj h
          subst this
          by_cases hc : k ∈ cache.keys
          · exact add_mem_keys _ _ _ _ hadd k (Or.inl (hmono k hc))
          · have hm : k ∈ cache.missing_keys (tickets.map (fun t => t.key)) :=
              (mem_missing_keys cache _ k).mpr ⟨hk, hc⟩
            by_cases hc1 : k ∈ cache1.keys
            · exact add_mem_keys _ _ _ _ hadd k (Or.inl hc1)
            · exact add_mem_keys _ _ _ _ hadd k
                (Or.inr ((mem_missing_keys cache1 _ k).mpr ⟨hm, hc1⟩))

/-- Claim C1: (i) when every key of the item list is already present in
the cache, `embed_tickets` makes zero external embedding calls and
returns the aligned `(keys, vectors)` view straight from
`cache.get(all_keys)` with the cache unchanged; hence (ii) after any
successful `embed_tickets` call, a second call of the pipeline on the
same item set invokes the embedding adapter zero additional times. -/
theorem embed_tickets_cached_zero_calls :
    (∀ (embedFn : String → List ℚ) (tickets : List TicketRecord)
        (cache : EmbeddingCache) (bs ce : Nat),
      (∀ k ∈ tickets.map (fun t => t.key), k ∈ cache.keys) →
      embed_tickets embedFn tickets cache bs ce =
        .ok ⟨tickets.map (fun t => t.key),
          (cache.get (tickets.map (fun t => t.key))).2, cache, 0⟩) ∧
    (∀ (embedFn : String → List ℚ) (tickets : List TicketRecord)
        (cache : EmbeddingCache) (bs ce : Nat) (res : EmbedResult),
      embed_tickets embedFn tickets cache bs ce = .ok res →
      embed_tickets embedFn tickets res.cache bs ce =
        .ok ⟨tickets.map (fun t => t.key),
          (res.cache.get (tickets.map (fun t => t.key))).2, res.cache, 0⟩) :=
  ⟨fun embedFn tickets cache bs ce h =>
    embed_tickets_all_cached embedFn tickets cache bs ce h,
   fun embedFn tickets cache bs ce res h =>
    embed_tickets_all_cached embedFn tickets res.cache bs ce
      (embed_tickets_ok_keys embedFn tickets cache bs ce res h)⟩

theorem embed_tickets_cached_zero_calls_witness :
    embed_tickets (fun _ => [(1 : ℚ)]) [⟨"A", "ta"⟩] ⟨["A"], [[2]]⟩ 1 1 =
      .ok ⟨["A"], [[2]], ⟨["A"], [[2]]⟩, 0⟩ ∧
    embed_tickets (fun _ => [(1 : ℚ)]) [⟨"A", "ta"⟩] ⟨["A"], [[1]]⟩ 1 1 =
      .ok ⟨["A"], [[1]], ⟨["A"], [[1]]⟩, 0⟩ := by
  constructor
  · have h := embed_tickets_cached_zero_calls.1 (fun _ => [(1 : ℚ)]) [⟨"A", "ta"⟩]
      ⟨["A"], [[2]]⟩ 1 1 (by intro k hk; simpa using hk)
    simpa [EmbeddingCache.get, EmbeddingCache.idx?, lastIndexOf] using h
  · have hfirst : embed_tickets (fun _ => [(1 : ℚ)]) [⟨"A", "ta"⟩] ⟨[], []⟩ 1 1 =
        .ok ⟨["A"], [[1]], ⟨["A"], [[1]]⟩, 1⟩ := by
      have hchunk : chunkList 1 ["ta"] = [["ta"]] := by
        rw [chunkList]
        · norm_num
          rw [chunkList]
          norm_num
      have hmiss : EmbeddingCache.missing_keys ⟨[], []⟩
          (List.map (fun t => t.key) [(⟨"A", "ta"⟩ : TicketRecord)]) = ["A"] := by
        simp [EmbeddingCache.missing_keys, EmbeddingCache.idx?, lastIndexOf]
      have htext : List.map (keyToText [(⟨"A", "ta"⟩ : TicketRecord)]) ["A"] = ["ta"] := by
        simp [keyToText]
      have hprov : embedProvider (fun _ => [(1 : ℚ)]) ["ta"] 1 1 ⟨[], []⟩ ["A"] =
          .ok ([[1]], ⟨["A"], [[1]]⟩, 1) := by
        simp [embedProvider, hchunk, embedLoopGo, embedLoopStep, EmbeddingCache.add]
      have hstill : EmbeddingCache.missing_keys ⟨["A"], [[1]]⟩ ["A"] = [] := by
        simp [EmbeddingCache.missing_keys, EmbeddingCache.idx?, lastIndexOf]
      have hget : (EmbeddingCache.get ⟨["A"], [[1]]⟩ ["A"]).2 = [[1]] := by
        simp [EmbeddingCache.get, EmbeddingCache.idx?, lastIndexOf]
      simp only [embed_tickets, hmiss, htext, hprov, hstill]
      norm_num [hget]
    have h := embed_tickets_cached_zero_calls.2 (fun _ => [(1 : ℚ)]) [⟨"A", "ta"⟩]
      ⟨[], []⟩ 1 1 ⟨["A"], [[1]], ⟨["A"], [[1]]⟩, 1⟩ hfirst
    simpa [EmbeddingCache.get, EmbeddingCache.idx?, lastIndexOf] using h
